import Mathlib

/-!
Shallow embedding of the core logic of `src/extension.ts` from the
vscode-ae-typescript-runner repository: the membership cache
(`fileIsListed` with the module-level `CACHE` and `CONFIG_CACHE` maps)
and the path matcher (`getMostSimilarPath`).

External effects are passed in explicitly: the `fs.stat` modification
time is a `Nat` argument, and the outcome of the external
`tsc --noEmit --listFiles` invocation (`getListFiles`) is an
`Except ListErr (List String)` argument.  `fileIsListed` returns the
call result, the updated cache state, and the number of external
listing invocations the call performed.
-/

namespace AeRunner

/-- Failure of the external listing invocation: `getListFiles` rejects
with the message that tsc was not found when `child_process.exec`
reports an error. -/
inductive ListErr where
  | toolUnavailable
deriving DecidableEq, Repr

/-- A value of the `CACHE` map: the config path the entry was derived
from and whether the file was found in that listing. -/
structure MembershipEntry where
  configPath : String
  found : Bool
deriving DecidableEq, Repr

/-- Lookup in an association list modelling a JS `Map` (`Map.get`). -/
def mapGet {α : Type} : List (String × α) → String → Option α
  | [], _ => none
  | (k, v) :: rest, key => if k = key then some v else mapGet rest key

/-- Update in an association list modelling a JS `Map` (`Map.set`):
replace the first binding of the key, or append a new binding. -/
def mapSet {α : Type} : List (String × α) → String → α → List (String × α)
  | [], key, v => [(key, v)]
  | (k, w) :: rest, key, v =>
      if k = key then (key, v) :: rest else (k, w) :: mapSet rest key v

/-- The mutable module state: `CONFIG_CACHE : Map<string, number>` and
`CACHE : Map<string, { configPath, found }>`. -/
structure CacheState where
  configCache : List (String × Nat)
  cache : List (String × MembershipEntry)
deriving DecidableEq, Repr

/-- The cache-hit test of `fileIsListed` (lines 46-54): if `CACHE` has an
entry for the file whose `configPath` field equals the config path, and
`CONFIG_CACHE` holds exactly the current modification time for that
config, the cached `found` value is returned. -/
def cacheHit (st : CacheState) (fileName configPath : String) (mtime : Nat) :
    Option Bool :=
  match mapGet st.cache fileName with
  | none => none
  | some c =>
    if c.configPath = configPath then
      match mapGet st.configCache configPath with
      | none => none
      | some t => if t = mtime then some c.found else none
    else none

/-- The body of the `for (const file of files)` loop of `fileIsListed`
(lines 60-67), threading the `found` flag and the `CACHE` map. -/
def warmStep (fileName configPath : String)
    (acc : Bool × List (String × MembershipEntry)) (file : String) :
    Bool × List (String × MembershipEntry) :=
  if file = fileName then (true, acc.2)
  else (acc.1, mapSet acc.2 file ⟨configPath, true⟩)

/-- `fileIsListed` (lines 44-70).  Arguments: the two string arguments of
the source function, the modification time `fs.stat` reports for the
config, and the outcome of the external `getListFiles` invocation.
Result: the value returned (or the propagated rejection), the state of
the two maps afterwards, and how many times the external listing was
invoked during the call. -/
def fileIsListed (fileName configPath : String) (mtime : Nat)
    (listing : Except ListErr (List String)) (st : CacheState) :
    Except ListErr Bool × CacheState × Nat :=
  match cacheHit st fileName configPath mtime with
  | some found => (Except.ok found, st, 0)
  | none =>
    let configCache1 := mapSet st.configCache configPath mtime
    match listing with
    | Except.error e => (Except.error e, ⟨configCache1, st.cache⟩, 1)
    | Except.ok files =>
      let fc := files.foldl (warmStep fileName configPath) (false, st.cache)
      (Except.ok fc.1,
       ⟨configCache1, mapSet fc.2 fileName ⟨configPath, fc.1⟩⟩, 1)

/-- Node `path.extname` for a path using `/` as separator: the substring
of the last path component from its last dot to its end, with the
special cases of the Node algorithm (no dot, a leading dot that is the
only dot, and a component that is exactly two dots all yield the empty
extension).  Computed, like the Node source, by scanning from the end:
trailing separators are skipped, the last component is isolated and its
final dot located. -/
def extname (s : String) : String :=
  let rev := s.data.reverse
  let comp := (rev.dropWhile (fun ch => ch = '/')).takeWhile (fun ch => ch ≠ '/')
  let afterDot := comp.takeWhile (fun ch => ch ≠ '.')
  match comp.dropWhile (fun ch => ch ≠ '.') with
  | [] => ""
  | _ :: before =>
    if before = [] then ""
    else if before = ['.'] ∧ afterDot = [] then ""
    else String.mk ('.' :: afterDot.reverse)

/-- The local `removeExt` of `getMostSimilarPath` (line 106):
`p.substring(0, p.length - path.extname(p).length)`. -/
def removeExt (p : String) : String :=
  String.mk (p.data.take (p.data.length - (extname p).data.length))

/-- The scoring loop of `getMostSimilarPath` (lines 112-120): compare the
characters of the two extension-stripped strings position-aligned from
the end, counting consecutive matches and stopping at the first
mismatch.  The fuel argument is `len - i`, so the loop runs while
`i < len`. -/
def scoreAux (p c : List Char) : Nat → Nat → Nat
  | _, 0 => 0
  | i, fuel + 1 =>
    if p.get? (p.length - 1 - i) = c.get? (c.length - 1 - i)
    then scoreAux p c (i + 1) fuel + 1
    else 0

/-- The score `getMostSimilarPath` assigns to a candidate, as a function
of the two extension-stripped strings. -/
def similarScore (pBase cBase : String) : Nat :=
  scoreAux pBase.data cBase.data 0 (min pBase.data.length cBase.data.length)

/-- An element of the `arr` built by `getMostSimilarPath` (line 109). -/
structure Scored where
  path : String
  score : Nat
deriving DecidableEq, Repr

/-- `getMostSimilarPath` (lines 105-134).  The JS `arr.sort(comparator)`
with the descending-score comparator is a stable sort (guaranteed by
ECMAScript), so it is modelled by a stable insertion sort under the
relation that puts the left element first when its score is at least
the score of the right element.  `arr[0].path` on an empty `arr` is a
thrown TypeError in JS; it is modelled by `none`. -/
def getMostSimilarPath (p : String) (ps : List String) : Option String :=
  let pBase := removeExt p
  let arr := ps.map (fun q => (⟨q, similarScore pBase (removeExt q)⟩ : Scored))
  (List.insertionSort (fun lhs rhs => rhs.score ≤ lhs.score) arr).head?.map
    (fun s => s.path)

theorem mapGet_mapSet {α : Type} (m : List (String × α)) (k key : String) (v : α) :
    mapGet (mapSet m k v) key = if k = key then some v else mapGet m key := by
  induction m with
  | nil => simp [mapGet, mapSet]
  | cons hd tl ih =>
    obtain ⟨k1, w⟩ := hd
    by_cases h1 : k1 = k
    · subst h1
      by_cases h2 : k1 = key <;> simp [mapGet, mapSet, h2]
    · by_cases h2 : k1 = key
      · subst h2
        have : ¬ k = k1 := fun h => h1 h.symm
        simp [mapGet, mapSet, h1, this]
      · simp [mapGet, mapSet, h1, h2, ih]

theorem warm_step_eq_pos (f c : String) (b : Bool)
    (M : List (String × MembershipEntry)) (x : String) (hx : x = f) :
    warmStep f c (b, M) x = (true, M) := by
  simp [warmStep, hx]

theorem warm_step_eq_neg (f c : String) (b : Bool)
    (M : List (String × MembershipEntry)) (x : String) (hx : ¬ x = f) :
    warmStep f c (b, M) x = (b, mapSet M x ⟨c, true⟩) := by
  simp [warmStep, hx]

theorem warm_found (f c : String) :
    ∀ (files : List String) (b : Bool) (M : List (String × MembershipEntry)),
      (files.foldl (warmStep f c) (b, M)).1 = (b || decide (f ∈ files)) := by
  intro files
  induction files with
  | nil => intro b M; simp
  | cons x xs ih =>
    intro b M
    rw [List.foldl_cons]
    by_cases hx : x = f
    · rw [warm_step_eq_pos f c b M x hx, ih true M]
      subst hx
      simp [List.mem_cons]
    · rw [warm_step_eq_neg f c b M x hx, ih b _]
      have hx2 : ¬ f = x := fun h => hx h.symm
      simp [List.mem_cons, hx2]

theorem warm_member (f c : String) :
    ∀ (files : List String) (b : Bool) (M : List (String × MembershipEntry))
      (k : String), k ≠ f →
      (k ∈ files ∨ mapGet M k = some ⟨c, true⟩) →
      mapGet (files.foldl (warmStep f c) (b, M)).2 k = some ⟨c, true⟩ := by
  intro files
  induction files with
  | nil =>
    intro b M k _ hk
    rcases hk with hk | hk
    · simp at hk
    · simpa using hk
  | cons x xs ih =>
    intro b M k hkf hk
    rw [List.foldl_cons]
    by_cases hx : x = f
    · rw [warm_step_eq_pos f c b M x hx]
      refine ih true M k hkf ?_
      rcases hk with hk | hk
      · rcases List.mem_cons.mp hk with hk | hk
        · exact absurd (hk.trans hx) hkf
        · exact Or.inl hk
      · exact Or.inr hk
    · rw [warm_step_eq_neg f c b M x hx]
      refine ih b _ k hkf ?_
      rcases hk with hk | hk
      · rcases List.mem_cons.mp hk with hk | hk
        · subst hk
          exact Or.inr (by simp [mapGet_mapSet])
        · exact Or.inl hk
      · by_cases hxk : x = k
        · subst hxk
          exact Or.inr (by simp [mapGet_mapSet])
        · exact Or.inr (by simpa [mapGet_mapSet, hxk] using hk)

theorem warm_no_new_false (f c : String) :
    ∀ (files : List String) (b : Bool) (M : List (String × MembershipEntry))
      (k : String) (e : MembershipEntry),
      mapGet (files.foldl (warmStep f c) (b, M)).2 k = some e →
      e.found = true ∨ mapGet M k = some e := by
  intro files
  induction files with
  | nil => intro b M k e h; exact Or.inr (by simpa using h)
  | cons x xs ih =>
    intro b M k e h
    rw [List.foldl_cons] at h
    by_cases hx : x = f
    · rw [warm_step_eq_pos f c b M x hx] at h
      exact ih true M k e h
    · rw [warm_step_eq_neg f c b M x hx] at h
      have h2 := ih b (mapSet M x ⟨c, true⟩) k e h
      rcases h2 with h2 | h2
      · exact Or.inl h2
      · by_cases hxk : x = k
        · subst hxk
          rw [mapGet_mapSet] at h2
          simp at h2
          exact Or.inl (by rw [← h2])
        · rw [mapGet_mapSet, if_neg hxk] at h2
          exact Or.inr h2

theorem cacheHit_of_entry (st : CacheState) (f c : String) (m : Nat) (b : Bool)
    (h1 : mapGet st.cache f = some ⟨c, b⟩)
    (h2 : mapGet st.configCache c = some m) :
    cacheHit st f c m = some b := by
  simp [cacheHit, h1, h2]

theorem fileIsListed_ok_inv (f c : String) (m : Nat)
    (L : Except ListErr (List String)) (st st1 : CacheState) (b : Bool) (n : Nat)
    (h : fileIsListed f c m L st = (Except.ok b, st1, n)) :
    mapGet st1.cache f = some ⟨c, b⟩ ∧ mapGet st1.configCache c = some m := by
  rcases hh : cacheHit st f c m with _ | v
  · rcases L with e | S
    · simp [fileIsListed, hh] at h
    · simp only [fileIsListed, hh] at h
      simp only [Prod.mk.injEq, Except.ok.injEq] at h
      obtain ⟨hb, hst, -⟩ := h
      subst hb
      constructor
      · rw [← hst]
        simp [mapGet_mapSet]
      · rw [← hst]
        simp [mapGet_mapSet]
  · have hv : fileIsListed f c m L st = (Except.ok v, st, 0) := by
      simp [fileIsListed, hh]
    rw [hv] at h
    simp only [Prod.mk.injEq, Except.ok.injEq] at h
    obtain ⟨hb, hst, -⟩ := h
    subst hb
    subst hst
    unfold cacheHit at hh
    split at hh
    · simp at hh
    · rename_i e he
      split at hh
      · rename_i hcp
        split at hh
        · simp at hh
        · rename_i t ht
          split at hh
          · rename_i htm
            simp only [Option.some.injEq] at hh
            subst htm
            refine ⟨?_, ht⟩
            rw [he, ← hh, ← hcp]
          · simp at hh
      · simp at hh

/-- C1: if a call to `fileIsListed` with file `f`, config `c` and current
modification time `m` succeeds, then a second call for the same file and
config, while the stored modification time for `c` still equals the
current one `m`, returns the cached membership boolean, leaves the state
untouched and performs zero external listing invocations, whatever the
listing oracle would say. -/
theorem second_call_returns_cached (f c : String) (m : Nat)
    (L1 L2 : Except ListErr (List String)) (st st1 : CacheState) (b : Bool)
    (n : Nat) (h : fileIsListed f c m L1 st = (Except.ok b, st1, n)) :
    fileIsListed f c m L2 st1 = (Except.ok b, st1, 0) := by
  obtain ⟨h1, h2⟩ := fileIsListed_ok_inv f c m L1 st st1 b n h
  simp [fileIsListed, cacheHit_of_entry st1 f c m b h1 h2]

/-- C1 witness: a concrete first call on the empty state succeeds, and
the second call is a pure cache hit even though its listing oracle would
fail. -/
theorem second_call_returns_cached_witness :
    fileIsListed "f" "c" 3 (Except.ok ["f"]) ⟨[], []⟩ =
      (Except.ok true, ⟨[("c", 3)], [("f", ⟨"c", true⟩)]⟩, 1) ∧
    fileIsListed "f" "c" 3 (Except.error ListErr.toolUnavailable)
        ⟨[("c", 3)], [("f", ⟨"c", true⟩)]⟩ =
      (Except.ok true, ⟨[("c", 3)], [("f", ⟨"c", true⟩)]⟩, 0) := by
  refine ⟨rfl, ?_⟩
  exact second_call_returns_cached "f" "c" 3 (Except.ok ["f"])
    (Except.error ListErr.toolUnavailable) ⟨[], []⟩
    ⟨[("c", 3)], [("f", ⟨"c", true⟩)]⟩ true 1 rfl

theorem cacheHit_isSome_iff (st : CacheState) (f c : String) (m : Nat) :
    (cacheHit st f c m).isSome = true ↔
      ∃ e, mapGet st.cache f = some e ∧ e.configPath = c ∧
        mapGet st.configCache c = some m := by
  unfold cacheHit
  rcases he : mapGet st.cache f with _ | e
  · simp
  · simp only
    by_cases hcp : e.configPath = c
    · rw [if_pos hcp]
      rcases ht : mapGet st.configCache c with _ | t
      · simp [ht, hcp]
      · by_cases htm : t = m
        · subst htm
          simp [hcp, ht]
        · simp [htm, hcp, ht]
    · simp [hcp]

theorem count_zero_iff_hit (f c : String) (m : Nat)
    (L : Except ListErr (List String)) (st : CacheState) :
    (fileIsListed f c m L st).2.2 = 0 ↔ (cacheHit st f c m).isSome = true := by
  rcases hh : cacheHit st f c m with _ | v
  · rcases L with er | S <;> simp [fileIsListed, hh]
  · simp [fileIsListed, hh]

/-- C9: the cache-hit test of `fileIsListed` uses exact numeric equality
on the stored and current modification times: the call skips the
external listing (zero invocations) exactly when an entry for the file
exists, its config field equals the queried config, and the stored
timestamp for that config is exactly the current modification time. -/
theorem hit_requires_exact_mtime (f c : String) (m : Nat)
    (L : Except ListErr (List String)) (st : CacheState) :
    (fileIsListed f c m L st).2.2 = 0 ↔
      ∃ e, mapGet st.cache f = some e ∧ e.configPath = c ∧
        mapGet st.configCache c = some m :=
  (count_zero_iff_hit f c m L st).trans (cacheHit_isSome_iff st f c m)

/-- C5: when the stored timestamp for the config differs from the current
modification time, or no cache entry for the file is associated with the
config, `fileIsListed` invokes the external listing exactly once. -/
theorem miss_invokes_listing_once (f c : String) (m : Nat)
    (L : Except ListErr (List String)) (st : CacheState)
    (h : mapGet st.configCache c ≠ some m ∨
         ∀ e, mapGet st.cache f = some e → e.configPath ≠ c) :
    (fileIsListed f c m L st).2.2 = 1 := by
  have hnone : cacheHit st f c m = none := by
    rw [← Option.not_isSome_iff_eq_none]
    intro hs
    obtain ⟨e, he, hcp, ht⟩ := (cacheHit_isSome_iff st f c m).mp (by simpa using hs)
    rcases h with h | h
    · exact h ht
    · exact h e he hcp
  rcases L with er | S <;> simp [fileIsListed, hnone]

/-- C5 witness: with a stale stored timestamp (5 against current 7) the
call performs exactly one listing invocation. -/
theorem miss_invokes_listing_once_witness :
    (mapGet (CacheState.mk [("c", 5)] []).configCache "c" ≠ some 7 ∨
      ∀ e, mapGet (CacheState.mk [("c", 5)] []).cache "f" = some e →
        e.configPath ≠ "c") ∧
    (fileIsListed "f" "c" 7 (Except.ok []) ⟨[("c", 5)], []⟩).2.2 = 1 :=
  ⟨Or.inl (by decide),
   miss_invokes_listing_once "f" "c" 7 (Except.ok []) ⟨[("c", 5)], []⟩
     (Or.inl (by decide))⟩

/-- C3: on a cache miss with a successful listing `S`, `fileIsListed`
returns true exactly when the queried file occurs in `S`, and the cache
entry of the queried file afterwards holds that same boolean with the
queried config. -/
theorem miss_sets_own_entry (f c : String) (m : Nat) (S : List String)
    (st : CacheState) (h : cacheHit st f c m = none) :
    (fileIsListed f c m (Except.ok S) st).1 = Except.ok (decide (f ∈ S)) ∧
    mapGet (fileIsListed f c m (Except.ok S) st).2.1.cache f =
      some ⟨c, decide (f ∈ S)⟩ := by
  have hfc := warm_found f c S false st.cache
  constructor
  · simp [fileIsListed, h, hfc]
  · simp [fileIsListed, h, mapGet_mapSet, hfc]

/-- C3 witness: querying a file absent from the listing returns false and
stores a false membership entry for it. -/
theorem miss_sets_own_entry_witness :
    cacheHit ⟨[], []⟩ "f" "c" 2 = none ∧
    ((fileIsListed "f" "c" 2 (Except.ok ["g"]) ⟨[], []⟩).1 =
        Except.ok (decide ("f" ∈ ["g"])) ∧
      mapGet (fileIsListed "f" "c" 2 (Except.ok ["g"]) ⟨[], []⟩).2.1.cache "f" =
        some ⟨"c", decide ("f" ∈ ["g"])⟩) :=
  ⟨rfl, miss_sets_own_entry "f" "c" 2 ["g"] ⟨[], []⟩ rfl⟩

/-- C4: a cache-miss call for file `b` whose listing returns `[a, b, d]`
answers true, and a subsequent call for `a` with the same config and the
same modification time answers true from the warmed cache, with zero
listing invocations and no state change, whatever its listing oracle
would say. -/
theorem warming_enables_hit (a b d c : String) (m : Nat)
    (L2 : Except ListErr (List String)) (st : CacheState)
    (h : cacheHit st b c m = none) :
    ∃ st1, fileIsListed b c m (Except.ok [a, b, d]) st =
        (Except.ok true, st1, 1) ∧
      fileIsListed a c m L2 st1 = (Except.ok true, st1, 0) := by
  have hfc1 : ([a, b, d].foldl (warmStep b c) (false, st.cache)).1 = true := by
    rw [warm_found b c [a, b, d] false st.cache]
    simp
  refine ⟨⟨mapSet st.configCache c m,
    mapSet ([a, b, d].foldl (warmStep b c) (false, st.cache)).2 b ⟨c, true⟩⟩,
    ?_, ?_⟩
  · simp only [fileIsListed, h]
    rw [hfc1]
  · have hcfg : mapGet (mapSet st.configCache c m) c = some m := by
      simp [mapGet_mapSet]
    have hmem : mapGet
        (mapSet ([a, b, d].foldl (warmStep b c) (false, st.cache)).2 b ⟨c, true⟩)
        a = some ⟨c, true⟩ := by
      by_cases hab : a = b
      · subst hab
        simp [mapGet_mapSet]
      · rw [mapGet_mapSet, if_neg (fun hba => hab hba.symm)]
        exact warm_member b c [a, b, d] false st.cache a hab (Or.inl (by simp))
    have hhit := cacheHit_of_entry ⟨mapSet st.configCache c m,
        mapSet ([a, b, d].foldl (warmStep b c) (false, st.cache)).2 b ⟨c, true⟩⟩
        a c m true hmem hcfg
    simp only [fileIsListed, hhit]

/-- C4 witness: concrete warming run starting from the empty state. -/
theorem warming_enables_hit_witness :
    cacheHit ⟨[], []⟩ "B" "C" 1 = none ∧
    ∃ st1, fileIsListed "B" "C" 1 (Except.ok ["A", "B", "D"]) ⟨[], []⟩ =
        (Except.ok true, st1, 1) ∧
      fileIsListed "A" "C" 1 (Except.error ListErr.toolUnavailable) st1 =
        (Except.ok true, st1, 0) :=
  ⟨rfl, warming_enables_hit "A" "B" "D" "C" 1
    (Except.error ListErr.toolUnavailable) ⟨[], []⟩ rfl⟩

/-- C2 counterexample: a failed listing does not leave all cache state
unchanged.  With stored timestamp 5 for the config and current
modification time 7, the failing call rejects with the tool error, yet
the timestamp map has been overwritten with 7. -/
theorem failed_listing_mutates_timestamps :
    (fileIsListed "f" "c" 7 (Except.error ListErr.toolUnavailable)
        ⟨[("c", 5)], []⟩).1 = Except.error ListErr.toolUnavailable ∧
    (fileIsListed "f" "c" 7 (Except.error ListErr.toolUnavailable)
        ⟨[("c", 5)], []⟩).2.1 ≠ (⟨[("c", 5)], []⟩ : CacheState) :=
  ⟨rfl, by decide⟩

/-- C2 amended: when the external listing fails on a cache miss, the call
propagates the failure and the membership-entry map is left exactly as
it was, but the per-config timestamp map has already been updated with
the current modification time (the source writes `CONFIG_CACHE` before
awaiting the listing). -/
theorem failed_listing_keeps_membership_map (f c : String) (m : Nat)
    (st : CacheState) (h : cacheHit st f c m = none) :
    fileIsListed f c m (Except.error ListErr.toolUnavailable) st =
      (Except.error ListErr.toolUnavailable,
       ⟨mapSet st.configCache c m, st.cache⟩, 1) := by
  simp [fileIsListed, h]

/-- C2 amended witness: concrete failing call from a stale state. -/
theorem failed_listing_keeps_membership_map_witness :
    cacheHit ⟨[("c", 5)], [("g", ⟨"c", true⟩)]⟩ "f" "c" 7 = none ∧
    fileIsListed "f" "c" 7 (Except.error ListErr.toolUnavailable)
        ⟨[("c", 5)], [("g", ⟨"c", true⟩)]⟩ =
      (Except.error ListErr.toolUnavailable,
       ⟨mapSet [("c", 5)] "c" 7, [("g", ⟨"c", true⟩)]⟩, 1) :=
  ⟨rfl, failed_listing_keeps_membership_map "f" "c" 7
    ⟨[("c", 5)], [("g", ⟨"c", true⟩)]⟩ rfl⟩

/-- C10: the warming loop writes only member entries, so a call preserves
the invariant that every cache entry with a false membership flag is
keyed by a file that was passed as the file argument of some call: if
every false entry of the input state is keyed in `queried`, every false
entry after the call is keyed in `fileName :: queried`. -/
theorem false_entries_only_queried (f c : String) (m : Nat)
    (L : Except ListErr (List String)) (st : CacheState)
    (queried : List String)
    (hinv : ∀ k e, mapGet st.cache k = some e → e.found = false →
      k ∈ queried) :
    ∀ k e, mapGet (fileIsListed f c m L st).2.1.cache k = some e →
      e.found = false → k ∈ f :: queried := by
  intro k e hk hf
  rcases hh : cacheHit st f c m with _ | v
  · rcases L with er | S
    · simp only [fileIsListed, hh] at hk
      exact List.mem_cons_of_mem f (hinv k e hk hf)
    · simp only [fileIsListed, hh] at hk
      by_cases hfk : f = k
      · exact hfk ▸ List.mem_cons_self f queried
      · rw [mapGet_mapSet, if_neg hfk] at hk
        rcases warm_no_new_false f c S false st.cache k e hk with h1 | h1
        · rw [h1] at hf; exact absurd hf (by simp)
        · exact List.mem_cons_of_mem f (hinv k e h1 hf)
  · simp only [fileIsListed, hh] at hk
    exact List.mem_cons_of_mem f (hinv k e hk hf)

/-- C10 witness: from the empty state, a call whose listing does not
contain the queried file leaves as only false entry the queried file
itself. -/
theorem false_entries_only_queried_witness :
    (∀ k e, mapGet (CacheState.mk [] []).cache k = some e →
      e.found = false → k ∈ ([] : List String)) ∧
    "f" ∈ "f" :: ([] : List String) :=
  ⟨fun k e hk _ => by simp [mapGet] at hk,
   false_entries_only_queried "f" "c" 3 (Except.ok ["g"]) ⟨[], []⟩ []
     (fun k e hk _ => by simp [mapGet] at hk) "f" ⟨"c", false⟩
     (by decide) rfl⟩

/-- Spec-side score: the number of consecutive equal characters of two
character lists compared position by position (here applied to reversed
lists, so position-aligned from the end), stopping at the first
mismatch. -/
def alignedMatchLen : List Char → List Char → Nat
  | a :: as, b :: bs => if a = b then alignedMatchLen as bs + 1 else 0
  | _, _ => 0

theorem alignedMatchLen_nil_left (l : List Char) : alignedMatchLen [] l = 0 := by
  cases l <;> rfl

theorem alignedMatchLen_nil_right (l : List Char) : alignedMatchLen l [] = 0 := by
  cases l <;> rfl

theorem scoreAux_eq_alignedMatchLen (p c : List Char) :
    ∀ (fuel i : Nat), i + fuel = min p.length c.length →
      scoreAux p c i fuel =
        alignedMatchLen (p.reverse.drop i) (c.reverse.drop i) := by
  intro fuel
  induction fuel with
  | zero =>
    intro i hi
    rw [Nat.add_zero] at hi
    rcases Nat.le_total p.length c.length with hle | hle
    · rw [Nat.min_eq_left hle] at hi
      have hnil : p.reverse.drop i = [] :=
        List.drop_eq_nil_of_le (by simpa using Nat.le_of_eq hi.symm)
      rw [hnil, alignedMatchLen_nil_left]
      rfl
    · rw [Nat.min_eq_right hle] at hi
      have hnil : c.reverse.drop i = [] :=
        List.drop_eq_nil_of_le (by simpa using Nat.le_of_eq hi.symm)
      rw [hnil, alignedMatchLen_nil_right]
      rfl
  | succ fuel ih =>
    intro i hi
    have hmin1 := Nat.min_le_left p.length c.length
    have hmin2 := Nat.min_le_right p.length c.length
    have hip : i < p.length := by omega
    have hic : i < c.length := by omega
    have hipr : i < p.reverse.length := by simpa using hip
    have hicr : i < c.reverse.length := by simpa using hic
    have hp1 : p.length - 1 - i < p.length := by omega
    have hc1 : c.length - 1 - i < c.length := by omega
    have hpg : p.get? (p.length - 1 - i) = some (p.reverse.get ⟨i, hipr⟩) := by
      rw [List.get?_eq_getElem?, List.getElem?_eq_getElem hp1,
        List.get_eq_getElem, List.getElem_reverse]
    have hcg : c.get? (c.length - 1 - i) = some (c.reverse.get ⟨i, hicr⟩) := by
      rw [List.get?_eq_getElem?, List.getElem?_eq_getElem hc1,
        List.get_eq_getElem, List.getElem_reverse]
    have hdp : p.reverse.drop i =
        p.reverse.get ⟨i, hipr⟩ :: p.reverse.drop (i + 1) := by
      rw [List.drop_eq_getElem_cons hipr, List.get_eq_getElem]
    have hdc : c.reverse.drop i =
        c.reverse.get ⟨i, hicr⟩ :: c.reverse.drop (i + 1) := by
      rw [List.drop_eq_getElem_cons hicr, List.get_eq_getElem]
    rw [hdp, hdc]
    simp only [scoreAux, alignedMatchLen, hpg, hcg, Option.some.injEq]
    by_cases hch : p.reverse.get ⟨i, hipr⟩ = c.reverse.get ⟨i, hicr⟩
    · rw [if_pos hch, if_pos hch, ih (i + 1) (by omega)]
    · rw [if_neg hch, if_neg hch]

/-- C6: the score a candidate receives is the count of consecutive
position-aligned matching characters of the two extension-stripped
strings, counted from the last character backward and stopping at the
first mismatch; a path without an extension is compared as-is; and on
the spec example the shared stem foo wins over bar. -/
theorem score_is_aligned_suffix_len :
    (∀ p q : String, similarScore (removeExt p) (removeExt q) =
      alignedMatchLen (removeExt p).data.reverse (removeExt q).data.reverse) ∧
    (∀ p : String, extname p = "" → removeExt p = p) ∧
    getMostSimilarPath "/p/src/foo.ts" ["/p/out/foo.js", "/p/out/bar.js"] =
      some "/p/out/foo.js" := by
  refine ⟨?_, ?_, by decide⟩
  · intro p q
    have h := scoreAux_eq_alignedMatchLen (removeExt p).data (removeExt q).data
      (min (removeExt p).data.length (removeExt q).data.length) 0 (by omega)
    simpa [similarScore] using h
  · intro p h
    unfold removeExt
    rw [h]
    have h0 : ("" : String).data.length = 0 := rfl
    rw [h0, Nat.sub_zero, List.take_length]

/-- C6 witness: an extensionless path is stripped to itself. -/
theorem score_is_aligned_suffix_len_witness :
    extname "/x/file" = "" ∧ removeExt "/x/file" = "/x/file" :=
  ⟨by decide, score_is_aligned_suffix_len.2.1 "/x/file" (by decide)⟩

/-- C8: calling the matcher with an empty candidate list fails: there is
no first sorted element, modelling the error the source raises by
reading the field of an absent element. -/
theorem empty_candidates_fail (p : String) : getMostSimilarPath p [] = none :=
  rfl

theorem head_insertionSort_first_max :
    ∀ (l : List Scored), l ≠ [] →
      ∃ n, ∃ hn : n < l.length,
        (List.insertionSort (fun lhs rhs => rhs.score ≤ lhs.score) l).head? =
          some (l.get ⟨n, hn⟩) ∧
        (∀ y ∈ l, y.score ≤ (l.get ⟨n, hn⟩).score) ∧
        (∀ i, ∀ hi : i < l.length, i < n →
          (l.get ⟨i, hi⟩).score < (l.get ⟨n, hn⟩).score) := by
  intro l
  induction l with
  | nil => intro h; exact absurd rfl h
  | cons x xs ih =>
    intro _
    by_cases hxs : xs = []
    · subst hxs
      refine ⟨0, by simp, rfl, ?_, ?_⟩
      · intro y hy
        rcases List.mem_cons.mp hy with hy | hy
        · subst hy; exact Nat.le_refl _
        · simp at hy
      · intro i _ hi0
        exact absurd hi0 (Nat.not_lt_zero i)
    · obtain ⟨n1, hn1, hhead, hmax, hmin⟩ := ih hxs
      rcases hseq : List.insertionSort (fun lhs rhs => rhs.score ≤ lhs.score) xs
        with _ | ⟨y, t⟩
      · rw [hseq] at hhead
        simp at hhead
      · rw [hseq] at hhead
        simp only [List.head?_cons, Option.some.injEq] at hhead
        rw [hhead] at hseq
        have hstep : List.insertionSort
            (fun lhs rhs => rhs.score ≤ lhs.score) (x :: xs) =
            List.orderedInsert (fun lhs rhs => rhs.score ≤ lhs.score) x
              (xs.get ⟨n1, hn1⟩ :: t) := by
          rw [← hseq]
          rfl
        by_cases hxy : (xs.get ⟨n1, hn1⟩).score ≤ x.score
        · refine ⟨0, Nat.succ_pos xs.length, ?_, ?_, ?_⟩
          · rw [hstep]
            unfold List.orderedInsert
            rw [if_pos hxy]
            rfl
          · intro z hz
            rcases List.mem_cons.mp hz with hz | hz
            · subst hz; exact Nat.le_refl _
            · exact Nat.le_trans (hmax z hz) hxy
          · intro i _ hi0
            exact absurd hi0 (Nat.not_lt_zero i)
        · have hlt : x.score < (xs.get ⟨n1, hn1⟩).score := Nat.lt_of_not_le hxy
          refine ⟨n1 + 1, Nat.succ_lt_succ hn1, ?_, ?_, ?_⟩
          · rw [hstep]
            unfold List.orderedInsert
            rw [if_neg hxy]
            rfl
          · intro z hz
            rcases List.mem_cons.mp hz with hz | hz
            · subst hz
              exact Nat.le_of_lt hlt
            · exact hmax z hz
          · intro i hi hi0
            rcases i with _ | i1
            · exact hlt
            · exact hmin i1 (Nat.lt_of_succ_lt_succ hi)
                (Nat.lt_of_succ_lt_succ hi0)

/-- C7: for a non-empty candidate list the matcher returns the candidate
with the highest suffix-alignment score, and among candidates sharing
that score the one occurring first in input order; on the spec tie
example, where both candidates score zero, the first candidate is
returned rather than an error. -/
theorem best_match_is_first_highest :
    (∀ (p : String) (ps : List String), ps ≠ [] →
      ∃ n, ∃ hn : n < ps.length,
        getMostSimilarPath p ps = some (ps.get ⟨n, hn⟩) ∧
        (∀ q ∈ ps, similarScore (removeExt p) (removeExt q) ≤
          similarScore (removeExt p) (removeExt (ps.get ⟨n, hn⟩))) ∧
        (∀ i, ∀ hi : i < ps.length, i < n →
          similarScore (removeExt p) (removeExt (ps.get ⟨i, hi⟩)) <
          similarScore (removeExt p) (removeExt (ps.get ⟨n, hn⟩)))) ∧
    getMostSimilarPath "/a/z.ts" ["/x/q.js", "/y/q.js"] = some "/x/q.js" := by
  refine ⟨?_, by decide⟩
  intro p ps hne
  simp only [getMostSimilarPath]
  set f := fun q => (⟨q, similarScore (removeExt p) (removeExt q)⟩ : Scored)
    with hf
  have harr : ps.map f ≠ [] := by
    simpa [List.map_eq_nil_iff] using hne
  obtain ⟨n, hn, hhead, hmax, hmin⟩ := head_insertionSort_first_max (ps.map f)
    harr
  have hn2 : n < ps.length := by
    have := hn
    rwa [List.length_map] at this
  have hgetn : (ps.map f).get ⟨n, hn⟩ = f (ps.get ⟨n, hn2⟩) := by
    rw [List.get_eq_getElem, List.get_eq_getElem, List.getElem_map]
  refine ⟨n, hn2, ?_, ?_, ?_⟩
  · rw [hhead, hgetn]
    rfl
  · intro q hq
    have h1 := hmax (f q) (List.mem_map_of_mem f hq)
    rw [hgetn] at h1
    exact h1
  · intro i hi hi0
    have hi2 : i < (ps.map f).length := by
      rwa [List.length_map]
    have hgeti : (ps.map f).get ⟨i, hi2⟩ = f (ps.get ⟨i, hi⟩) := by
      rw [List.get_eq_getElem, List.get_eq_getElem, List.getElem_map]
    have h1 := hmin i hi2 hi0
    rw [hgetn, hgeti] at h1
    exact h1

/-- C7 witness: in the spec tie example both candidates score zero yet
the matcher returns the first one in input order. -/
theorem best_match_is_first_highest_witness :
    (["/x/q.js", "/y/q.js"] : List String) ≠ [] ∧
    ∃ n, ∃ hn : n < (["/x/q.js", "/y/q.js"] : List String).length,
      getMostSimilarPath "/a/z.ts" ["/x/q.js", "/y/q.js"] =
        some ((["/x/q.js", "/y/q.js"] : List String).get ⟨n, hn⟩) ∧
      (∀ q ∈ (["/x/q.js", "/y/q.js"] : List String),
        similarScore (removeExt "/a/z.ts") (removeExt q) ≤
        similarScore (removeExt "/a/z.ts")
          (removeExt ((["/x/q.js", "/y/q.js"] : List String).get ⟨n, hn⟩))) ∧
      (∀ i, ∀ hi : i < (["/x/q.js", "/y/q.js"] : List String).length, i < n →
        similarScore (removeExt "/a/z.ts")
          (removeExt ((["/x/q.js", "/y/q.js"] : List String).get ⟨i, hi⟩)) <
        similarScore (removeExt "/a/z.ts")
          (removeExt ((["/x/q.js", "/y/q.js"] : List String).get ⟨n, hn⟩))) :=
  ⟨by decide,
   best_match_is_first_highest.1 "/a/z.ts" ["/x/q.js", "/y/q.js"] (by decide)⟩

end AeRunner
